import Mathlib

/-!
Verification development for the matching and validation engine of
`arpextra.py` (an enhanced argparse).  The Python functions
`best_matches`, `match_regexp`, `multi_alternatives`, `multi_candidates`,
`multi`, the subcommand resolution of `MandatorySubCommands.__call__` /
`OptionalSubCommands.__call__`, and the post-parse checks of
`parse_known_args` (some-of groups, "subcommand required") are embedded
as executable Lean functions over an explicit data model, and the
specification's statements about them are settled as theorems.
-/

namespace Arpextra

/-- A Python value as far as the matching engine observes it: the engine
only ever compares values for equality, stores them, or embeds strings.
`vnone` models Python `None`. -/
inductive Value where
  | vnone
  | str (s : String)
  | int (n : Int)
deriving DecidableEq, Repr

/-- A converter candidate: a callable with a `__name__` (used for error
messages) and a conversion function; `none` models the callable raising
`ValueError` or `ArgumentTypeError` on that input (both are caught and
skipped by `best_matches`). -/
structure Converter where
  name : String
  fn : String → Option Value

/-- The data `match_regexp` extracts from a Python `re` match object:
the texts of capturing groups 1..n (`none` for a group that did not
participate in the match) and `lastindex`, the 1-based index of the last
matched capturing group (`none` if no group matched). -/
structure RMatch where
  groups : List (Option String)
  lastindex : Option Nat
deriving DecidableEq

/-- A compiled pattern, modelled by its `search` behaviour: the result of
`regexp.search(value, 0)`. -/
structure Regexp where
  search : String → Option RMatch

/-- A typed (non-string, non-pattern, non-callable) candidate value:
`val` is the candidate itself, `parse` models `type(alternative)(value)`
(`none` models `ValueError`), and `pyrepr` models `str(alternative)`
(used only for error messages). -/
structure TypedVal where
  val : Value
  parse : String → Option Value
  pyrepr : String

/-- One alternative of a candidate set, tagged the way `best_matches`
dispatches on it: callable, compiled pattern, other non-string value,
or literal string. -/
inductive Candidate where
  | conv (f : Converter)
  | pattern (r : Regexp)
  | typed (t : TypedVal)
  | str (s : String)

/-- Python `alternative.startswith(value)`: `value` is a prefix of `s`. -/
def startswith (s value : String) : Bool :=
  value.data.isPrefixOf s.data

/-- Python `match.group(i)` for a group that participated in the match
(1-based index `i`). -/
def group_text (m : RMatch) (i : Nat) : String :=
  ((m.groups.getD (i - 1) Option.none).getD "")

/-- `ArgumentParserExtra.match_regexp` (arpextra.py lines 280-288):
search the pattern in `value`; no match raises `ValueError` (modelled as
`none`); otherwise return the text of group `lastindex` when some group
matched, else the whole `value`. -/
def match_regexp (value : String) (r : Regexp) : Option String :=
  match r.search value with
  | Option.none => Option.none
  | some m =>
    match m.lastindex with
    | some i => some (group_text m i)
    | Option.none => some value

/-- The value `best_matches` returns: a single resolved value
(converter result, pattern text, typed value or exact literal), the
accumulated list of literal prefix candidates, or Python `None`
(constructor `pynone`). -/
inductive BMResult where
  | value (v : Value)
  | clist (cs : List String)
  | pynone
deriving DecidableEq, Repr

/-- `ArgumentParserExtra.best_matches` (arpextra.py lines 291-318), with
the running `candidates` accumulator made explicit (Python initialises it
to `None` and grows it with `append`; the empty list plays the role of
`None` here, which is faithful because the accumulator is only tested for
truthiness and is never empty once created).  Dispatch order per
alternative is exactly the source's: callable, then compiled pattern,
then non-string value, then literal string. -/
def best_matches (value : String) : List Candidate → List String → BMResult
  | [], acc =>
    if value = "" then .pynone
    else
      match acc with
      | [] => .pynone
      | cs => .clist cs
  | a :: rest, acc =>
    match a with
    | .conv f =>
      match f.fn value with
      | some v => .value v
      | Option.none => best_matches value rest acc
    | .pattern r =>
      match match_regexp value r with
      | some s => .value (.str s)
      | Option.none => best_matches value rest acc
    | .typed t =>
      match t.parse value with
      | some v => if v = t.val then .value t.val else best_matches value rest acc
      | Option.none => best_matches value rest acc
    | .str s =>
      if ¬ startswith s value then best_matches value rest acc
      else if s.length = value.length then .value (.str s)
      else best_matches value rest (acc ++ [s])

/-- Python `list.insert(i, x)`. -/
def insertAt (l : List String) (i : Nat) (x : String) : List String :=
  l.take i ++ x :: l.drop i

/-- The loop body of `multi_alternatives` (arpextra.py lines 325-343):
literal strings and typed values are inserted at position `fixed` (the
end of the growing front block) in declaration order; each pattern
contributes the label "proper string" and each callable its `__name__`,
appended at the end unless already present in `doc[fixed:]`
(Python `doc.index(what, fixed)`). -/
def alt_doc : List Candidate → List String → Nat → List String
  | [], doc, _ => doc
  | a :: rest, doc, fixed =>
    match a with
    | .str s => alt_doc rest (insertAt doc fixed ("\"" ++ s ++ "\"")) (fixed + 1)
    | .typed t => alt_doc rest (insertAt doc fixed t.pyrepr) (fixed + 1)
    | .pattern _ =>
      if "proper string" ∈ doc.drop fixed then alt_doc rest doc fixed
      else alt_doc rest (doc ++ ["proper string"]) fixed
    | .conv f =>
      if f.name ∈ doc.drop fixed then alt_doc rest doc fixed
      else alt_doc rest (doc ++ [f.name]) fixed

/-- `ArgumentParserExtra.multi_alternatives` (arpextra.py lines
320-349): `none` models the `(None, None)` return for an empty
alternatives list; otherwise the labels are joined with commas and a
final "or", and the second component is Python's `is_plural`. -/
def multi_alternatives (alts : List Candidate) : Option (String × Bool) :=
  match alts with
  | [] => Option.none
  | _ :: _ =>
    let doc := alt_doc alts [] 0
    let last := doc.getLastD ""
    match doc.dropLast with
    | [] => some (last, false)
    | front => some (String.intercalate ", " front ++ " or " ++ last, true)

/-- `ArgumentParserExtra.multi_candidates` (arpextra.py lines 351-358):
the "is ambiguous, did you mean" message (the Python `pop` of the last
element is rendered with `dropLast`/`getLastD`). -/
def multi_candidates (value : String) (cs : List String) : String :=
  "\"" ++ value ++ "\" is ambiguous, did you mean "
    ++ String.intercalate ", " cs.dropLast ++ " or " ++ cs.getLastD "" ++ "?"

/-- Result of the `multi` entry point: a resolved value or a raised
`argparse.ArgumentTypeError` carrying its message. -/
inductive MultiResult where
  | ok (v : Value)
  | err (msg : String)
deriving DecidableEq, Repr

/-- `ArgumentParserExtra.multi` (arpextra.py lines 360-382).  The two
format strings `"%s" should be either %s` and `"%s" should be %s` are
rendered as explicit concatenations. -/
def multi (value : String) (alts : List Candidate) : MultiResult :=
  match best_matches value alts [] with
  | .pynone =>
    match multi_alternatives alts with
    | Option.none => .err ("\"" ++ value ++ "\": cannot accept any argument")
    | some (cands, is_plural) =>
      if is_plural then .err ("\"" ++ value ++ "\" should be either " ++ cands)
      else .err ("\"" ++ value ++ "\" should be " ++ cands)
  | .value v => .ok v
  | .clist cs =>
    match cs with
    | [c] => .ok (.str c)
    | cs => .err (multi_candidates value cs)

/-- The `choices` mapping of a subparsers action: an insertion-ordered
association of declared subcommand names to subparser object identities
(Python `id(...)`, modelled as `Nat`).  Aliases are distinct keys paired
with the same identity.  Keys are unique (Python dict). -/
abbrev Choices := List (String × Nat)

/-- Python `id(self.choices[k])`: the identity of the subparser stored
under key `k` (0 if the key is absent, which the resolver never hits). -/
def choiceId (choices : Choices) (k : String) : Nat :=
  (choices.find? (fun p => p.1 == k)).elim 0 Prod.snd

/-- The canonicalisation loop of `MandatorySubCommands.__call__`
(arpextra.py lines 65-69): the first-declared key whose subparser has
identity `i`. -/
def canonicalName (choices : Choices) (i : Nat) : Option String :=
  (choices.find? (fun p => p.2 == i)).map Prod.fst

/-- The token-resolution part of `MandatorySubCommands.__call__`
(arpextra.py lines 33-70): match `values[0]` against the declared
subcommand names with `best_matches`; on `None` raise the
"subcommand ... should be ..." `ArgumentError`; on a list of prefix
candidates, raise the "subcommand ... is ambiguous ..." error unless all
candidates map to the same subparser; otherwise rewrite the token to the
first-declared canonical name of the resolved subparser (`.ok`).
The error message built with `' '.join(error)` over a statically known
list shape is rendered as an explicit concatenation.  When `choices` is
empty and the token matched nothing, CPython raises a `TypeError` while
joining `None`; that unreachable-in-practice branch is modelled by the
distinguished message "TypeError". -/
def subcommand_resolve (value : String) (choices : Choices) : Except String String :=
  let alts := choices.map (fun p => Candidate.str p.1)
  match best_matches value alts [] with
  | .pynone =>
    match multi_alternatives alts with
    | Option.none => .error "TypeError"
    | some (cands, is_plural) =>
      .error ("subcommand \"" ++ value ++ "\" should be "
        ++ (if is_plural then "either " ++ cands else cands))
  | .clist cs =>
    let ids := cs.map (choiceId choices)
    if ids.all (fun i => i = ids.headD 0) then
      .ok ((canonicalName choices (ids.headD 0)).getD value)
    else
      .error ("subcommand " ++ multi_candidates value cs)
  | .value v =>
    match v with
    | .str s => .ok ((canonicalName choices (choiceId choices s)).getD value)
    | _ => .error "TypeError"

/-- The exact runtime class of an action, as observed by the
`type(action) == MandatorySubCommands` test in `parse_known_args`
(arpextra.py lines 499-501).  `OptionalSubCommands` is a subclass of
`MandatorySubCommands`, but `type(...) ==` distinguishes them exactly. -/
inductive ActionKind where
  | mandatorySub
  | optionalSub
  | other
deriving DecidableEq

/-- The end-of-parse mandatory-subcommand check of `parse_known_args`
(arpextra.py lines 498-502): error "subcommand required" when no
subcommand call ever ran (`subcommand_invoked` is false) and some action
is exactly a `MandatorySubCommands`. -/
def subcommand_required_check (invoked : Bool) (kinds : List ActionKind) : Option String :=
  if ¬ invoked ∧ kinds.any (fun k => k = ActionKind.mandatorySub) then
    some "subcommand required"
  else Option.none

/-- `OptionalSubCommands.__call__` (arpextra.py lines 84-87): with no
values at all it returns immediately (`none`: no resolution attempted,
no error, `subcommand_invoked` untouched); otherwise it resolves
`values[0]` like the mandatory variant. -/
def optional_sub_call (values : List String) (choices : Choices) :
    Option (Except String String) :=
  match values with
  | [] => Option.none
  | v :: _ => some (subcommand_resolve v choices)

/-- A member action of a some-of group, with the fields the end-of-parse
check reads: its option strings, metavar, destination and declared
default (`dflt`, Python `action.default`). -/
structure GAction where
  option_strings : List String
  metavar : Option String
  dest : String
  dflt : Value
deriving DecidableEq

/-- How a group member is named in the "is required" error (arpextra.py
lines 486-492): all of its flag spellings if any, else its metavar if
truthy (Python `elif action.metavar:` is false for both `None` and the
empty string), else its destination. -/
def action_names (a : GAction) : List String :=
  if a.option_strings ≠ [] then a.option_strings
  else if (a.metavar.getD "") ≠ "" then [a.metavar.getD ""]
  else [a.dest]

/-- The end-of-parse some-of-group check of `parse_known_args`
(arpextra.py lines 478-496).  `ns` maps a destination to the value
stored in the namespace (`getattr(ns, action.dest)`).  The Python code
flattens the member actions of all declared groups into one list and
errors only when that list is non-empty and every flattened member still
holds its declared default. -/
def some_of_check (ns : String → Value) (groups : List (List GAction)) : Option String :=
  let actions := groups.flatten
  if actions ≠ [] ∧ actions.all (fun a => ns a.dest = a.dflt) then
    let what := actions.foldl (fun acc a => acc ++ action_names a) []
    let last := what.getLastD ""
    match what.dropLast with
    | [] => some (last ++ " is required")
    | front => some ("either " ++ String.intercalate ", " front ++ " or " ++ last
        ++ " is required")
  else Option.none

/-- Whether a `multi` outcome is a raised `ArgumentTypeError`. -/
def MultiResult.isErr : MultiResult → Bool
  | .ok _ => false
  | .err _ => true

/-- A candidate that does not match `value` at all: the converter raises,
the pattern does not search, the parsed typed value differs from the
candidate, and the literal does not have `value` as a prefix. -/
def no_match (value : String) : Candidate → Bool
  | .conv f => (f.fn value).isNone
  | .pattern r => (r.search value).isNone
  | .typed t =>
    match t.parse value with
    | Option.none => true
    | some v => decide (v ≠ t.val)
  | .str s => !(startswith s value)

/-- A candidate that does not accept the empty token outright: the
converter raises on `""`, the pattern does not search `""`, the typed
value does not parse from `""` (or parses to a different value), and the
literal is not itself the empty string.  (Every literal has `""` as a
prefix, so non-empty literals merely accumulate and are then squashed by
the final empty-token test of `best_matches`.) -/
def rejects_empty : Candidate → Bool
  | .conv f => (f.fn "").isNone
  | .pattern r => (r.search "").isNone
  | .typed t =>
    match t.parse "" with
    | Option.none => true
    | some v => decide (v ≠ t.val)
  | .str s => decide (s ≠ "")

/-- Hypothesis predicate for the subcommand-canonicalisation theorem:
`best_matches` over the declared names resolves `value` (exactly, or as
a prefix of one or more keys) and every matched key is declared with
subparser identity `i`. -/
def resolves_to_node (value : String) (choices : Choices) (i : Nat) : Bool :=
  match best_matches value (choices.map (fun p => Candidate.str p.1)) [] with
  | .value (.str k) => decide (choices.find? (fun p => p.1 == k) = some (k, i))
  | .clist cs =>
    !cs.isEmpty && cs.all (fun k => decide (choices.find? (fun p => p.1 == k) = some (k, i)))
  | _ => false

/-- Spec-side label of a pattern or converter candidate: patterns are
described as "proper string", converters by their registered name;
literals and typed values have no such label. -/
def cand_name : Candidate → Option String
  | .pattern _ => some "proper string"
  | .conv f => some f.name
  | .typed _ => Option.none
  | .str _ => Option.none

/-- Spec-side front block of the alternatives description: the quoted
literals and the typed-value texts, in declaration order. -/
def spec_front_labels : List Candidate → List String
  | [] => []
  | .str s :: rest => ("\"" ++ s ++ "\"") :: spec_front_labels rest
  | .typed t :: rest => t.pyrepr :: spec_front_labels rest
  | .pattern _ :: rest => spec_front_labels rest
  | .conv _ :: rest => spec_front_labels rest

/-- Spec-side first-occurrence de-duplication of a label list, skipping
labels already in `seen`. -/
def dedup_from (seen : List String) : List String → List String
  | [] => []
  | w :: rest =>
    if w ∈ seen then dedup_from seen rest
    else w :: dedup_from (seen ++ [w]) rest

/-- The evolution of the appended name region of `alt_doc`: the names of
the pattern/converter candidates, appended in declaration order unless
already present. -/
def names_aux (seen : List String) : List Candidate → List String
  | [] => seen
  | a :: rest =>
    match cand_name a with
    | Option.none => names_aux seen rest
    | some w => if w ∈ seen then names_aux seen rest else names_aux (seen ++ [w]) rest

/-- Model of the compiled pattern `^(?:(a)(b))$`, i.e. `mkre "/(a)(b)/"`:
it searches successfully exactly on the string "ab", where group 1
matches "a", group 2 matches "b", and `lastindex` is 2 (the last matched
capturing group). -/
def re_ab : Regexp :=
  ⟨fun s => if s = "ab" then some ⟨[some "a", some "b"], some 2⟩ else Option.none⟩

/-- Fixture: a pattern that matches nothing (only its label matters). -/
def re_none : Regexp := ⟨fun _ => Option.none⟩

/-- Fixture: a converter named "int" accepting only "5". -/
def conv_int : Converter :=
  ⟨"int", fun s => if s = "5" then some (Value.int 5) else Option.none⟩

/-- Fixture: a second, distinct converter that also has the name "int". -/
def conv_int2 : Converter := ⟨"int", fun _ => Option.none⟩

/-- Fixture: a some-of group member `--a` with destination "a". -/
def act_a : GAction := ⟨["--a"], Option.none, "a", Value.vnone⟩

/-- Fixture: a some-of group member `--b` with destination "b". -/
def act_b : GAction := ⟨["--b"], Option.none, "b", Value.vnone⟩

/-- Fixture: a namespace where nothing has been supplied. -/
def ns_unset : String → Value := fun _ => Value.vnone

/-- Fixture: a namespace where only destination "b" was supplied. -/
def ns_only_b : String → Value := fun d => if d = "b" then Value.str "x" else Value.vnone

/-- Fixture: the typed candidate 10 (its type parses only "10"). -/
def tv_ten : TypedVal :=
  ⟨Value.int 10, fun s => if s = "10" then some (Value.int 10) else Option.none, "10"⟩

/-- Spec-side description of the alternatives label list: the quoted
literals and typed values in declaration order, followed by the distinct
pattern/converter display names in first-occurrence order. -/
def spec_labels (alts : List Candidate) : List String :=
  spec_front_labels alts ++ dedup_from [] (alts.filterMap cand_name)

theorem startswith_eq_of_length {s value : String}
    (h1 : startswith s value = true) (h2 : s.length = value.length) : s = value := by
  have hp : value.data <+: s.data := List.isPrefixOf_iff_prefix.mp h1
  have hl : value.data.length = s.data.length := h2.symm
  exact (String.ext (hp.eq_of_length hl)).symm

theorem best_matches_exact_aux (value : String) :
    ∀ (lits : List String) (acc : List String), value ∈ lits →
      best_matches value (lits.map Candidate.str) acc = .value (.str value)
  | [], _, h => absurd h (List.not_mem_nil value)
  | s :: tl, acc, h => by
    by_cases hsv : s = value
    · subst hsv
      have hpfx : startswith s s = true := by
        simp [startswith, List.isPrefixOf_iff_prefix]
      simp [best_matches, hpfx]
    · have hmem : value ∈ tl := by
        rcases List.mem_cons.mp h with h1 | h1
        · exact absurd h1.symm hsv
        · exact h1
      by_cases hpfx : startswith s value = true
      · by_cases hlen : s.length = value.length
        · exact absurd (startswith_eq_of_length hpfx hlen) hsv
        · simp [best_matches, hpfx, hlen,
            best_matches_exact_aux value tl (acc ++ [s]) hmem]
      · simp [best_matches, hpfx, best_matches_exact_aux value tl acc hmem]

/-- C2: for a candidate set consisting only of literal strings, matching
a token that is exactly one of its members returns `Unique` with that
member, regardless of where the member appears in declaration order and
of other members having the token as a prefix. -/
theorem best_matches_exact_literal (lits : List String) (value : String)
    (h : value ∈ lits) :
    best_matches value (lits.map Candidate.str) [] = .value (.str value) :=
  best_matches_exact_aux value lits [] h

theorem best_matches_exact_literal_w :
    ("be" ∈ ["bet", "be", "bed"]) ∧
      best_matches "be" (["bet", "be", "bed"].map Candidate.str) [] =
        .value (.str "be") :=
  ⟨by decide, best_matches_exact_literal ["bet", "be", "bed"] "be" (by decide)⟩

/-- C1 counterexample: the non-empty token "x" matches no candidate of
the set containing only the literal "y", and `best_matches` returns
Python `None` for it — not a distinct empty "no match" list — although
the token is not the empty string. -/
theorem best_matches_none_counter :
    best_matches "x" [Candidate.str "y"] [] = .pynone ∧ "x" ≠ "" := by
  constructor
  · decide
  · decide

/-- C1 amended: `best_matches` returns `None` both for the empty token
and for a non-empty token that matches no candidate; there is no
distinct "no match" outcome — whenever every candidate fails to match
(converters and patterns reject, typed values parse differently, no
literal has the token as a prefix), the result is `None` for the empty
and the non-empty token alike. -/
theorem best_matches_none_on_no_match (value : String) (alts : List Candidate)
    (h : alts.all (no_match value) = true) :
    best_matches value alts [] = .pynone := by
  induction alts with
  | nil => by_cases hv : value = "" <;> simp [best_matches, hv]
  | cons a tl ih =>
    rw [List.all_cons, Bool.and_eq_true] at h
    obtain ⟨h1, h2⟩ := h
    cases a with
    | conv f =>
      have hf : f.fn value = Option.none := by
        simpa [no_match, Option.isNone_iff_eq_none] using h1
      simp [best_matches, hf, ih h2]
    | pattern r =>
      have hs : r.search value = Option.none := by
        simpa [no_match, Option.isNone_iff_eq_none] using h1
      have hm : match_regexp value r = Option.none := by simp [match_regexp, hs]
      simp [best_matches, hm, ih h2]
    | typed t =>
      cases hp : t.parse value with
      | none => simp [best_matches, hp, ih h2]
      | some v =>
        have hne : ¬ v = t.val := by
          rw [no_match, hp] at h1
          exact of_decide_eq_true h1
        simp [best_matches, hp, hne, ih h2]
    | str s =>
      have hsw : ¬ startswith s value = true := by
        simpa [no_match] using h1
      simp [best_matches, hsw, ih h2]

theorem best_matches_none_on_no_match_w :
    ([Candidate.str "y"].all (no_match "x") = true) ∧
      best_matches "x" [Candidate.str "y"] [] = .pynone :=
  ⟨by decide, best_matches_none_on_no_match "x" [Candidate.str "y"] (by decide)⟩

/-- C10: matching any token, empty or not, against an empty candidate
set via the `multi` entry point raises an `ArgumentTypeError` whose
message is `"<token>": cannot accept any argument`. -/
theorem multi_no_alternatives (value : String) :
    multi value [] = .err ("\"" ++ value ++ "\": cannot accept any argument") := by
  have h0 : best_matches value [] [] = .pynone := by
    by_cases h : value = "" <;> simp [best_matches, h]
  simp [multi, h0, multi_alternatives]

/-- C7 counterexample: the empty token against the candidate set
containing only the literal "foo" makes `best_matches` return `None`,
but the `multi` entry point does NOT let it pass through: it raises an
`ArgumentTypeError` ("" should be "foo"). -/
theorem multi_empty_token_counter :
    best_matches "" [Candidate.str "foo"] [] = .pynone ∧
      multi "" [Candidate.str "foo"] = .err "\"\" should be \"foo\"" := by
  constructor
  · decide
  · decide

theorem best_matches_empty_aux (alts : List Candidate)
    (h : alts.all rejects_empty = true) :
    ∀ acc, best_matches "" alts acc = .pynone := by
  induction alts with
  | nil => intro acc; simp [best_matches]
  | cons a tl ih =>
    intro acc
    rw [List.all_cons, Bool.and_eq_true] at h
    obtain ⟨h1, h2⟩ := h
    cases a with
    | conv f =>
      have hf : f.fn "" = Option.none := by
        simpa [rejects_empty, Option.isNone_iff_eq_none] using h1
      simp [best_matches, hf, ih h2]
    | pattern r =>
      have hs : r.search "" = Option.none := by
        simpa [rejects_empty, Option.isNone_iff_eq_none] using h1
      have hm : match_regexp "" r = Option.none := by simp [match_regexp, hs]
      simp [best_matches, hm, ih h2]
    | typed t =>
      cases hp : t.parse "" with
      | none => simp [best_matches, hp, ih h2]
      | some v =>
        have hne : ¬ v = t.val := by
          rw [rejects_empty, hp] at h1
          exact of_decide_eq_true h1
        simp [best_matches, hp, hne, ih h2]
    | str s =>
      have hne : s ≠ "" := of_decide_eq_true (by simpa [rejects_empty] using h1)
      have hsw : startswith s "" = true := by
        simp [startswith, List.isPrefixOf_iff_prefix]
      have hlen : ¬ s.length = 0 := by
        intro hl
        exact hne (String.ext (List.length_eq_zero.mp hl))
      simp [best_matches, hsw, hlen, ih h2]

/-- C7 amended: matching the empty token against a candidate set none of
whose members accepts the empty string outright makes `best_matches`
return `None`, but the `multi` entry point then raises an
`ArgumentTypeError` (the "should be ..." or "cannot accept any argument"
message) instead of letting the value pass through; the un-set
pass-through exists only for the complete absence of a token. -/
theorem multi_empty_token_rejected (alts : List Candidate)
    (h : alts.all rejects_empty = true) :
    best_matches "" alts [] = .pynone ∧ (multi "" alts).isErr = true := by
  have hbm : best_matches "" alts [] = .pynone := best_matches_empty_aux alts h []
  refine ⟨hbm, ?_⟩
  rcases hma : multi_alternatives alts with _ | ⟨cands, is_plural⟩
  · simp [multi, hbm, hma, MultiResult.isErr]
  · cases is_plural <;> simp [multi, hbm, hma, MultiResult.isErr]

theorem multi_empty_token_rejected_w :
    ([Candidate.str "foo"].all rejects_empty = true) ∧
      (best_matches "" [Candidate.str "foo"] [] = .pynone ∧
        (multi "" [Candidate.str "foo"]).isErr = true) :=
  ⟨by decide, multi_empty_token_rejected [Candidate.str "foo"] (by decide)⟩

/-- C3 counterexample: on the pattern `^(?:(a)(b))$` and the token "ab",
the first capturing group's matched text is "a", but the matcher returns
`Unique` with "b" — the text of the LAST matched group
(`match.lastindex`), not the first. -/
theorem regexp_group_counter :
    best_matches "ab" [Candidate.pattern re_ab] [] = .value (.str "b") ∧
      (re_ab.search "ab").map (fun m => m.groups.getD 0 Option.none) =
        some (some "a") ∧
      BMResult.value (Value.str "b") ≠ .value (.str "a") := by
  refine ⟨by decide, by decide, by decide⟩

/-- C3 amended: if the pattern's search matches, the matcher returns
`Unique` with the text of the last matched capturing group
(`match.lastindex`), or the whole token if no capturing group
participated in the match (in particular when the pattern has none); on
search failure the matcher continues with the remaining candidates. -/
theorem regexp_match_spec (value : String) (r : Regexp) (rest : List Candidate)
    (acc : List String) :
    (r.search value = Option.none →
      best_matches value (Candidate.pattern r :: rest) acc =
        best_matches value rest acc) ∧
    (∀ m, r.search value = some m →
      best_matches value (Candidate.pattern r :: rest) acc =
        .value (.str (match m.lastindex with
          | some i => group_text m i
          | Option.none => value))) := by
  constructor
  · intro hs
    simp [best_matches, match_regexp, hs]
  · intro m hs
    cases hl : m.lastindex with
    | none => simp [best_matches, match_regexp, hs, hl]
    | some i => simp [best_matches, match_regexp, hs, hl]

theorem regexp_match_spec_w :
    best_matches "ab" [Candidate.pattern re_ab] [] = .value (.str "b") ∧
      best_matches "x" [Candidate.pattern re_ab, Candidate.str "x"] [] =
        best_matches "x" [Candidate.str "x"] [] := by
  constructor
  · exact (regexp_match_spec "ab" re_ab [] []).2
      ⟨[some "a", some "b"], some 2⟩ (by decide)
  · exact (regexp_match_spec "x" re_ab [Candidate.str "x"] []).1 (by decide)

/-- C8: the end-of-parse check errors with "subcommand required" exactly
when a `MandatorySubCommands` action (exact class, not the optional
subclass) was declared and no subcommand call ever ran; and the optional
variant accepts the complete absence of a subcommand token (its call
with zero values returns without resolving and without error). -/
theorem subcommand_required_iff (invoked : Bool) (kinds : List ActionKind)
    (choices : Choices) :
    (subcommand_required_check invoked kinds = some "subcommand required" ↔
      (invoked = false ∧ ActionKind.mandatorySub ∈ kinds)) ∧
    optional_sub_call [] choices = Option.none := by
  refine ⟨?_, rfl⟩
  have hany : (kinds.any (fun k => k = ActionKind.mandatorySub) = true) ↔
      ActionKind.mandatorySub ∈ kinds := by
    simp [List.any_eq_true]
  unfold subcommand_required_check
  split
  · rename_i hc
    obtain ⟨h1, h2⟩ := hc
    have h1' : invoked = false := by simpa using h1
    simp [h1', hany.mp h2]
  · rename_i hc
    constructor
    · intro h; simp at h
    · rintro ⟨h1, h2⟩
      exact absurd ⟨by simp [h1], hany.mpr h2⟩ hc

theorem find_node_decomp (choices : Choices) (i : Nat)
    (hex : ∃ p ∈ choices, p.2 = i) :
    ∃ c pre post, canonicalName choices i = some c ∧
      choices = pre ++ (c, i) :: post ∧ ∀ p ∈ pre, p.2 ≠ i := by
  induction choices with
  | nil => simp at hex
  | cons q tl ih =>
    by_cases hq : q.2 = i
    · refine ⟨q.1, [], tl, ?_, ?_, by simp⟩
      · unfold canonicalName
        rw [List.find?_cons_of_pos]
        · rfl
        · simp [hq]
      · have : (q.1, i) = q := by rw [← hq]
        simp [this]
    · have hex' : ∃ p ∈ tl, p.2 = i := by
        rcases hex with ⟨p, hp, hpi⟩
        rcases List.mem_cons.mp hp with h | h
        · subst h; exact absurd hpi hq
        · exact ⟨p, h, hpi⟩
      obtain ⟨c, pre, post, hcn, hdec, hpre⟩ := ih hex'
      refine ⟨c, q :: pre, post, ?_, by simp [hdec], ?_⟩
      · unfold canonicalName at hcn ⊢
        rw [List.find?_cons_of_neg]
        · exact hcn
        · simp [hq]
      · intro p hp
        rcases List.mem_cons.mp hp with h | h
        · subst h; exact hq
        · exact hpre p h

/-- C4: whenever a subcommand token resolves (exactly, or as a prefix of
one or more declared names, possibly aliases) and every matched declared
name belongs to the subparser with identity `i`, the resolver succeeds —
it is never reported as ambiguous — and rewrites the token to the
first-declared canonical name of that subparser: the returned name `c`
is declared with identity `i` and every earlier declaration has a
different identity. -/
theorem subcommand_canonical (value : String) (choices : Choices) (i : Nat)
    (h : resolves_to_node value choices i = true) :
    ∃ c pre post,
      subcommand_resolve value choices = .ok c ∧
      choices = pre ++ (c, i) :: post ∧
      ∀ p ∈ pre, p.2 ≠ i := by
  unfold resolves_to_node at h
  cases hbm : best_matches value (choices.map fun p => Candidate.str p.1) [] with
  | pynone => rw [hbm] at h; exact absurd h (by simp)
  | value v =>
    rw [hbm] at h
    cases v with
    | vnone => exact absurd h (by simp)
    | int n => exact absurd h (by simp)
    | str k =>
      have hf : choices.find? (fun p => p.1 == k) = some (k, i) :=
        of_decide_eq_true h
      have hmem : (k, i) ∈ choices := List.mem_of_find?_eq_some hf
      have hid : choiceId choices k = i := by simp [choiceId, hf]
      obtain ⟨c, pre, post, hcn, hdec, hpre⟩ :=
        find_node_decomp choices i ⟨(k, i), hmem, rfl⟩
      refine ⟨c, pre, post, ?_, hdec, hpre⟩
      simp [subcommand_resolve, hbm, hid, hcn]
  | clist cs =>
    rw [hbm] at h
    rw [Bool.and_eq_true] at h
    obtain ⟨hne, hall⟩ := h
    cases cs with
    | nil => simp at hne
    | cons k ks =>
      have hfk : choices.find? (fun p => p.1 == k) = some (k, i) :=
        of_decide_eq_true ((List.all_eq_true.mp hall) k (by simp))
      have hkid : choiceId choices k = i := by simp [choiceId, hfk]
      have hmem : (k, i) ∈ choices := List.mem_of_find?_eq_some hfk
      have hids : ∀ j ∈ (k :: ks).map (choiceId choices), j = i := by
        intro j hj
        obtain ⟨q, hq, rfl⟩ := List.mem_map.mp hj
        have hfq : choices.find? (fun p => p.1 == q) = some (q, i) :=
          of_decide_eq_true ((List.all_eq_true.mp hall) q hq)
        simp [choiceId, hfq]
      have hhead : ((k :: ks).map (choiceId choices)).headD 0 = i := by
        simp [hkid]
      have hall2 : (((k :: ks).map (choiceId choices)).all
          (fun j => j = ((k :: ks).map (choiceId choices)).headD 0)) = true := by
        rw [List.all_eq_true]
        intro j hj
        have h1 := hids j hj
        rw [hhead, h1]
        simp
      obtain ⟨c, pre, post, hcn, hdec, hpre⟩ :=
        find_node_decomp choices i ⟨(k, i), hmem, rfl⟩
      refine ⟨c, pre, post, ?_, hdec, hpre⟩
      have hcond : ∀ a ∈ ks, choiceId choices a = choiceId choices k := by
        intro a ha
        have h1 := hids (choiceId choices a)
          (List.mem_map.mpr ⟨a, by simp [ha], rfl⟩)
        rw [h1, hkid]
      simp [subcommand_resolve, hbm, hcond, hkid, hcn]
      intro x hx
      exact (hcond x hx).trans hkid

theorem subcommand_canonical_w :
    (resolves_to_node "ka" [("epsilon", 1), ("kaksi", 1), ("katu", 1)] 1 = true) ∧
      ∃ c pre post,
        subcommand_resolve "ka" [("epsilon", 1), ("kaksi", 1), ("katu", 1)] = .ok c ∧
        [("epsilon", 1), ("kaksi", 1), ("katu", 1)] = pre ++ (c, 1) :: post ∧
        ∀ p ∈ pre, p.2 ≠ 1 :=
  ⟨by decide,
    subcommand_canonical "ka" [("epsilon", 1), ("kaksi", 1), ("katu", 1)] 1 (by decide)⟩

theorem insertAt_append (doc : List String) (x : String) :
    insertAt doc doc.length x = doc ++ [x] := by
  simp [insertAt]

theorem alt_doc_literals (lits : List String) :
    ∀ doc : List String, alt_doc (lits.map Candidate.str) doc doc.length =
      doc ++ lits.map (fun s => "\"" ++ s ++ "\"") := by
  induction lits with
  | nil => intro doc; simp [alt_doc]
  | cons s tl ih =>
    intro doc
    have h2 := ih (doc ++ ["\"" ++ s ++ "\""])
    rw [List.length_append] at h2
    simp only [List.map_cons, alt_doc, insertAt_append, List.length_singleton] at h2 ⊢
    rw [h2]
    simp

theorem multi_alternatives_plural (lits : List String) (cands : String) (b : Bool)
    (h : multi_alternatives (lits.map Candidate.str) = some (cands, b)) :
    b = decide (1 < lits.length) := by
  cases lits with
  | nil => simp [multi_alternatives] at h
  | cons a tl =>
    have hd : alt_doc ((a :: tl).map Candidate.str) [] 0 =
        (a :: tl).map (fun s => "\"" ++ s ++ "\"") := by
      simpa using alt_doc_literals (a :: tl) []
    cases tl with
    | nil =>
      simp only [multi_alternatives, List.map_cons, List.map_nil] at h hd
      rw [hd] at h
      simp at h
      simp [h.2]
    | cons c tl2 =>
      simp only [multi_alternatives, List.map_cons] at h hd
      rw [hd] at h
      simp only [List.dropLast_cons₂] at h
      simp at h
      rw [h.2]
      have h1 : 1 < (a :: c :: tl2).length := by
        simp [List.length_cons]
      simp [h1]

/-- C5: when a subcommand token prefix-matches two or more declared
names mapping to at least two distinct subparsers, resolution fails with
the form `subcommand "<token>" is ambiguous, did you mean A or B?`; when
the token matches no declared name at all, it fails with the different
form `subcommand "<token>" should be ...`, with the word "either"
inserted exactly when more than one alternative is listed. -/
theorem subcommand_error_forms (value : String) (choices : Choices) :
    (∀ cs, best_matches value (choices.map fun p => Candidate.str p.1) [] = .clist cs →
      ((cs.map (choiceId choices)).all
        (fun j => j = (cs.map (choiceId choices)).headD 0)) = false →
      subcommand_resolve value choices =
        .error ("subcommand " ++ ("\"" ++ value ++ "\" is ambiguous, did you mean "
          ++ String.intercalate ", " cs.dropLast ++ " or " ++ cs.getLastD "" ++ "?"))) ∧
    (best_matches value (choices.map fun p => Candidate.str p.1) [] = .pynone →
      ∀ cands is_plural,
        multi_alternatives (choices.map fun p => Candidate.str p.1) =
          some (cands, is_plural) →
        subcommand_resolve value choices =
          .error ("subcommand \"" ++ value ++ "\" should be "
            ++ (if is_plural then "either " ++ cands else cands)) ∧
        is_plural = decide (1 < choices.length)) := by
  constructor
  · intro cs hbm hids
    have hids' : ∃ x ∈ cs, ¬ (choiceId choices x =
        ((cs.map (choiceId choices)).headD 0)) := by
      simpa using hids
    simp [subcommand_resolve, hbm, multi_candidates]
    simpa using hids'
  · intro hbm cands is_plural hma
    refine ⟨by simp [subcommand_resolve, hbm, hma], ?_⟩
    have h2 : multi_alternatives ((choices.map Prod.fst).map Candidate.str) =
        some (cands, is_plural) := by
      rw [List.map_map]
      exact hma
    have h3 := multi_alternatives_plural (choices.map Prod.fst) cands is_plural h2
    simpa using h3

theorem subcommand_error_forms_w :
    subcommand_resolve "al" [("alpha", 1), ("algol", 2)] =
      .error ("subcommand " ++ ("\"" ++ "al" ++ "\" is ambiguous, did you mean "
        ++ String.intercalate ", " (["alpha", "algol"] : List String).dropLast
        ++ " or " ++ (["alpha", "algol"] : List String).getLastD "" ++ "?")) ∧
    (subcommand_resolve "zz" [("alpha", 1), ("algol", 2)] =
      .error ("subcommand \"" ++ "zz" ++ "\" should be "
        ++ (if true then "either " ++ "\"alpha\" or \"algol\""
            else "\"alpha\" or \"algol\"")) ∧
      (true : Bool) = decide (1 < ([("alpha", 1), ("algol", 2)] : Choices).length)) := by
  constructor
  · exact (subcommand_error_forms "al" [("alpha", 1), ("algol", 2)]).1
      ["alpha", "algol"] (by decide) (by decide)
  · exact (subcommand_error_forms "zz" [("alpha", 1), ("algol", 2)]).2
      (by decide) "\"alpha\" or \"algol\"" true (by decide)

/-- C6 counterexample: with the two declared some-of groups `{--a}` and
`{--b}` and only `--b` supplied, every member of the group `{--a}` still
holds its declared default, yet the parse does NOT fail: the check is
collective over the flattened members of all groups, not per group. -/
theorem some_of_per_group_counter :
    some_of_check ns_only_b [[act_a], [act_b]] = Option.none ∧
      ns_only_b act_a.dest = act_a.dflt := by
  constructor
  · decide
  · decide

theorem foldl_append_names (acts : List GAction) :
    ∀ init : List String,
      acts.foldl (fun acc a => acc ++ action_names a) init =
        init ++ (acts.map action_names).flatten := by
  induction acts with
  | nil => intro init; simp
  | cons a tl ih =>
    intro init
    simp only [List.foldl_cons, List.map_cons, List.flatten_cons]
    rw [ih (init ++ action_names a)]
    simp

theorem action_names_ne_nil (a : GAction) : action_names a ≠ [] := by
  unfold action_names
  split
  · assumption
  · split <;> simp

theorem dropLast_nil_iff (l : List String) : l.dropLast = [] ↔ l.length ≤ 1 := by
  cases l with
  | nil => simp
  | cons a t => cases t <;> simp

/-- C6 amended: the some-of check is collective across all declared
groups: the parse fails only when every member of every group still
holds its declared default, and then the error names the members of all
groups (each by its flag spellings, else its metavar, else its
destination), joined as `either A, B or C is required` when more than
one name is listed and as `A is required` for a single name; if any
member of any group differs from its default, the check passes. -/
theorem some_of_collective (ns : String → Value) (groups : List (List GAction))
    (hne : groups.flatten ≠ []) :
    ((∀ a ∈ groups.flatten, ns a.dest = a.dflt) →
      some_of_check ns groups =
        some (if 1 < ((groups.flatten.map action_names).flatten).length
          then "either "
            ++ String.intercalate ", "
              ((groups.flatten.map action_names).flatten).dropLast
            ++ " or " ++ ((groups.flatten.map action_names).flatten).getLastD ""
            ++ " is required"
          else ((groups.flatten.map action_names).flatten).getLastD ""
            ++ " is required")) ∧
    ((∃ a ∈ groups.flatten, ¬ ns a.dest = a.dflt) →
      some_of_check ns groups = Option.none) := by
  constructor
  · intro hall
    have hcond : groups.flatten ≠ [] ∧
        groups.flatten.all (fun a => ns a.dest = a.dflt) = true := by
      refine ⟨hne, ?_⟩
      rw [List.all_eq_true]
      intro a ha
      exact decide_eq_true (hall a ha)
    unfold some_of_check
    rw [if_pos hcond, foldl_append_names]
    dsimp only [List.nil_append]
    have hflne : ((groups.flatten.map action_names).flatten) ≠ [] := by
      cases hfl : groups.flatten with
      | nil => exact absurd hfl hne
      | cons a tl =>
        simp only [List.map_cons, List.flatten_cons]
        simp [action_names_ne_nil a]
    by_cases hlen : 1 < ((groups.flatten.map action_names).flatten).length
    · cases hdl : ((groups.flatten.map action_names).flatten).dropLast with
      | nil =>
        rw [dropLast_nil_iff] at hdl
        omega
      | cons x xs =>
        rw [if_pos hlen]
    · have hdl : ((groups.flatten.map action_names).flatten).dropLast = [] := by
        rw [dropLast_nil_iff]
        omega
      rw [if_neg hlen, hdl]
  · rintro ⟨a, ha, hv⟩
    unfold some_of_check
    rw [if_neg]
    rintro ⟨h1, h2⟩
    rw [List.all_eq_true] at h2
    exact hv (of_decide_eq_true (h2 a ha))

theorem some_of_collective_w :
    some_of_check ns_unset [[act_a], [act_b]] =
        some "either --a or --b is required" ∧
      some_of_check ns_only_b [[act_a], [act_b]] = Option.none := by
  constructor
  · have h := (some_of_collective ns_unset [[act_a], [act_b]] (by decide)).1
      (by decide)
    rw [h]
    decide
  · exact (some_of_collective ns_only_b [[act_a], [act_b]] (by decide)).2
      ⟨act_b, by decide, by decide⟩

theorem alt_doc_split (alts : List Candidate) :
    ∀ front names : List String,
      alt_doc alts (front ++ names) front.length =
        (front ++ spec_front_labels alts) ++ names_aux names alts := by
  induction alts with
  | nil => intro front names; simp [alt_doc, spec_front_labels, names_aux]
  | cons a tl ih =>
    intro front names
    cases a with
    | str s =>
      have h1 : insertAt (front ++ names) front.length ("\"" ++ s ++ "\"") =
          (front ++ ["\"" ++ s ++ "\""]) ++ names := by
        simp [insertAt, List.take_left, List.drop_left]
      have h2 := ih (front ++ ["\"" ++ s ++ "\""]) names
      rw [List.length_append, List.length_singleton] at h2
      simp only [alt_doc, spec_front_labels, names_aux, cand_name, h1]
      rw [h2]
      simp
    | typed t =>
      have h1 : insertAt (front ++ names) front.length t.pyrepr =
          (front ++ [t.pyrepr]) ++ names := by
        simp [insertAt, List.take_left, List.drop_left]
      have h2 := ih (front ++ [t.pyrepr]) names
      rw [List.length_append, List.length_singleton] at h2
      simp only [alt_doc, spec_front_labels, names_aux, cand_name, h1]
      rw [h2]
      simp
    | pattern r =>
      have hdrop : (front ++ names).drop front.length = names :=
        List.drop_left front names
      simp only [alt_doc, spec_front_labels, names_aux, cand_name, hdrop]
      by_cases hw : "proper string" ∈ names
      · rw [if_pos hw, if_pos hw]
        exact ih front names
      · rw [if_neg hw, if_neg hw]
        have h2 := ih front (names ++ ["proper string"])
        rw [← List.append_assoc] at h2
        exact h2
    | conv f =>
      have hdrop : (front ++ names).drop front.length = names :=
        List.drop_left front names
      simp only [alt_doc, spec_front_labels, names_aux, cand_name, hdrop]
      by_cases hw : f.name ∈ names
      · rw [if_pos hw, if_pos hw]
        exact ih front names
      · rw [if_neg hw, if_neg hw]
        have h2 := ih front (names ++ [f.name])
        rw [← List.append_assoc] at h2
        exact h2

theorem names_aux_dedup (alts : List Candidate) :
    ∀ seen, names_aux seen alts =
      seen ++ dedup_from seen (alts.filterMap cand_name) := by
  induction alts with
  | nil => intro seen; simp [names_aux, dedup_from]
  | cons a tl ih =>
    intro seen
    cases a with
    | str s =>
      simp only [names_aux, cand_name, List.filterMap_cons]
      exact ih seen
    | typed t =>
      simp only [names_aux, cand_name, List.filterMap_cons]
      exact ih seen
    | pattern r =>
      simp only [names_aux, cand_name, List.filterMap_cons, dedup_from]
      by_cases hw : "proper string" ∈ seen
      · rw [if_pos hw, if_pos hw]
        exact ih seen
      · rw [if_neg hw, if_neg hw, ih (seen ++ ["proper string"])]
        simp
    | conv f =>
      simp only [names_aux, cand_name, List.filterMap_cons, dedup_from]
      by_cases hw : f.name ∈ seen
      · rw [if_pos hw, if_pos hw]
        exact ih seen
      · rw [if_neg hw, if_neg hw, ih (seen ++ [f.name])]
        simp

theorem dedup_from_nodup (l : List String) :
    ∀ seen, (dedup_from seen l).Nodup ∧ ∀ w ∈ dedup_from seen l, w ∉ seen := by
  induction l with
  | nil => intro seen; simp [dedup_from]
  | cons w tl ih =>
    intro seen
    by_cases hw : w ∈ seen
    · simpa [dedup_from, hw] using ih seen
    · obtain ⟨h1, h2⟩ := ih (seen ++ [w])
      constructor
      · rw [dedup_from, if_neg hw, List.nodup_cons]
        refine ⟨?_, h1⟩
        intro hmem
        exact (h2 w hmem) (by simp)
      · intro x hx
        rw [dedup_from, if_neg hw] at hx
        rcases List.mem_cons.mp hx with rfl | hx
        · exact hw
        · intro hxs
          exact (h2 x hx) (by simp [hxs])

theorem alt_doc_full (alts : List Candidate) :
    alt_doc alts [] 0 = spec_labels alts := by
  have h := alt_doc_split alts [] []
  simp only [List.nil_append, List.length_nil] at h
  rw [h, names_aux_dedup alts []]
  simp [spec_labels]

theorem spec_labels_cons_ne_nil (a : Candidate) (tl : List Candidate) :
    spec_labels (a :: tl) ≠ [] := by
  cases a with
  | str s => simp [spec_labels, spec_front_labels]
  | typed t => simp [spec_labels, spec_front_labels]
  | pattern r =>
    simp [spec_labels, spec_front_labels, cand_name, List.filterMap_cons, dedup_from]
  | conv f =>
    simp [spec_labels, spec_front_labels, cand_name, List.filterMap_cons, dedup_from]

/-- C9: for a non-empty candidate set, the alternatives description is
built from the deduplicated, order-preserving label list — the quoted
literals and typed values first, in declaration order, followed by the
display name of each distinct pattern or converter, each name at most
once, in first-occurrence order — joined with commas and a final "or";
the `is_plural` flag is true if and only if that list has more than one
element. -/
theorem multi_alternatives_spec (alts : List Candidate) (hne : alts ≠ []) :
    multi_alternatives alts =
      some ((if 1 < (spec_labels alts).length
          then String.intercalate ", " (spec_labels alts).dropLast
            ++ " or " ++ (spec_labels alts).getLastD ""
          else (spec_labels alts).getLastD ""),
        decide (1 < (spec_labels alts).length)) ∧
    (dedup_from [] (alts.filterMap cand_name)).Nodup := by
  refine ⟨?_, (dedup_from_nodup (alts.filterMap cand_name) []).1⟩
  cases alts with
  | nil => exact absurd rfl hne
  | cons a tl =>
    have hdoc := alt_doc_full (a :: tl)
    have hdocne := spec_labels_cons_ne_nil a tl
    simp only [multi_alternatives]
    rw [hdoc]
    by_cases hlen : 1 < (spec_labels (a :: tl)).length
    · rw [if_pos hlen, decide_eq_true hlen]
      cases hdl : (spec_labels (a :: tl)).dropLast with
      | nil =>
        rw [dropLast_nil_iff] at hdl
        omega
      | cons x xs => rfl
    · have hdl : (spec_labels (a :: tl)).dropLast = [] := by
        rw [dropLast_nil_iff]
        omega
      rw [if_neg hlen, decide_eq_false hlen, hdl]

theorem multi_alternatives_spec_w :
    multi_alternatives
        [Candidate.conv conv_int, Candidate.str "forever", Candidate.typed tv_ten,
          Candidate.pattern re_none, Candidate.conv conv_int2,
          Candidate.pattern re_ab] =
      some ("\"forever\", 10, int or proper string", true) ∧
    (dedup_from []
      ([Candidate.conv conv_int, Candidate.str "forever", Candidate.typed tv_ten,
        Candidate.pattern re_none, Candidate.conv conv_int2,
        Candidate.pattern re_ab].filterMap cand_name)).Nodup := by
  have h := multi_alternatives_spec
    [Candidate.conv conv_int, Candidate.str "forever", Candidate.typed tv_ten,
      Candidate.pattern re_none, Candidate.conv conv_int2, Candidate.pattern re_ab]
    (by simp)
  refine ⟨?_, h.2⟩
  rw [h.1]
  rfl

end Arpextra
